import Mathlib

/-!
Shallow embedding of the release-orchestration script
`src/scripts/ci/publish.ts` of the prisma2-development-environment
repository, together with proofs of the spec's claims about it.

JavaScript strings are modelled by `String`, JS arrays by `List`, the
JS object maps keyed by package name (`RawPackages`, `Packages`) by
association lists (`List RawPackage`, `List Package`) in insertion
order.  Numbers appearing here are all non-negative integers in the
source, so they are modelled by `Nat`; the one place where a JS float
special value (`-Infinity`) can appear is modelled explicitly.
-/

namespace PublishScript

/-! ## Character-list string helpers

The script uses a handful of JS string primitives (`startsWith`,
`includes`, `trim`, `split`, `path.dirname`, `path.join`, regexes).
They are modelled by executable functions on `List Char` via
`String.data`, so that every concrete instance evaluates by `decide`.
-/

/-- `listStartsWith l p` is true when `p` is an initial segment of `l`
(the model of JS `String.prototype.startsWith`). -/
def listStartsWith : List Char → List Char → Bool
  | _, [] => true
  | [], _ :: _ => false
  | x :: xs, y :: ys => x = y && listStartsWith xs ys

/-- `listContainsSub l pat` is true when `pat` occurs contiguously
somewhere in `l` (the model of JS `String.prototype.includes`). -/
def listContainsSub : List Char → List Char → Bool
  | [], pat => listStartsWith [] pat
  | x :: xs, pat => listStartsWith (x :: xs) pat || listContainsSub xs pat

def strStartsWith (s p : String) : Bool :=
  listStartsWith s.data p.data

def strContains (s pat : String) : Bool :=
  listContainsSub s.data pat.data

/-- Split a character list at every occurrence of `c`; always returns a
nonempty list of groups (the model of JS `String.prototype.split`). -/
def splitOnChar (c : Char) : List Char → List (List Char)
  | [] => [[]]
  | x :: xs =>
    match splitOnChar c xs with
    | [] => [[]]
    | g :: gs => if x = c then [] :: g :: gs else (x :: g) :: gs

/-- Split at the first occurrence of `c`: the part before it, and
`some` rest after it when `c` occurs at all. -/
def splitFirstChar (c : Char) : List Char → List Char × Option (List Char)
  | [] => ([], none)
  | x :: xs =>
    if x = c then ([], some xs)
    else
      match splitFirstChar c xs with
      | (a, b) => (x :: a, b)

def intercalateChar (c : Char) : List (List Char) → List Char
  | [] => []
  | [x] => x
  | x :: y :: rest => x ++ c :: intercalateChar c (y :: rest)

/-- Strip leading and trailing whitespace (the model of JS
`String.prototype.trim`). -/
def trimChars (l : List Char) : List Char :=
  ((l.dropWhile Char.isWhitespace).reverse.dropWhile Char.isWhitespace).reverse

def jsTrim (s : String) : String :=
  String.mk (trimChars s.data)

/-- Model of Node's `path.dirname` for the ordinary relative paths the
script manipulates: everything before the last `/` separator, `"."`
when there is none. -/
def dirname (p : String) : String :=
  match (splitOnChar '/' p.data).dropLast with
  | [] => "."
  | parts => String.mk (intercalateChar '/' parts)

/-- Model of Node's `path.join dir p` for the ordinary relative paths
the script manipulates. -/
def pathJoin (dir p : String) : String :=
  dir ++ "/" ++ p

def leadingDigits : List Char → List Char
  | [] => []
  | c :: rest => if c.isDigit then c :: leadingDigits rest else []

/-- Decimal value of a digit string (the model of JS `Number` on the
digit-only capture groups the script extracts). -/
def digitsToNat (l : List Char) : Nat :=
  l.foldl (fun n c => n * 10 + (c.toNat - 48)) 0

/-! ## Data model (`src/scripts/ci/publish.ts`, types `Commit`,
`RawPackage`, `Package`) -/

/-- `Commit` record (lines 10–16).  The `date` field is only used for
sorting commits and plays no role in any claim, so it is omitted. -/
structure Commit where
  dir : String
  hash : String
  isMergeCommit : Bool
  parentCommits : List String
deriving DecidableEq

/-- `RawPackage` (lines 105–108): of the parsed `package.json` only the
fields the script reads are modelled — `name`, `version`, and the KEY
SETS of `dependencies` / `devDependencies` (the version ranges are
never read). -/
structure RawPackage where
  name : String
  path : String
  version : String
  dependencies : List String := []
  devDependencies : List String := []
deriving DecidableEq

/-- `Package` (lines 137–146).  Of the carried `packageJson` the script
only ever reads `scripts.test` (truthiness, in `testPackages`), kept
here as the Boolean `hasTestScript`. -/
structure Package where
  name : String
  path : String
  version : String := ""
  usedBy : List String := []
  usedByDev : List String := []
  uses : List String := []
  usesDev : List String := []
  hasTestScript : Bool := false
deriving DecidableEq

def packageNames (packages : List Package) : List String :=
  packages.map fun p => p.name

/-! ## Small generic helpers from the script (lines 346–352) -/

/-- `flatten` (lines 346–348). -/
def flatten {T : Type} (arr : List (List T)) : List T :=
  arr.foldl (fun acc val => acc ++ val) []

/-- `intersection` (lines 350–352): `arr1.filter(v => arr2.includes v)`. -/
def intersection {T : Type} [DecidableEq T] (arr1 arr2 : List T) : List T :=
  arr1.filter fun value => decide (value ∈ arr2)

/-! ## Graph construction (lines 150–196) -/

/-- `getPrismaDependencies` (lines 189–196): keep only dependency names
in the `@prisma` scope (a `startsWith` check, NOT a membership check
against the discovered package set). -/
def getPrismaDependencies (dependencies : List String) : List String :=
  dependencies.filter fun d => strStartsWith d "@prisma"

/-- One mutation step `packageCache[dependency].usedBy.push(pkg.name)`
(line 172); when no package of that name exists the cache is unchanged
(the source logs `Skipping …` and does nothing, lines 173–175). -/
def pushUsedBy (cache : List Package) (dependency source : String) : List Package :=
  cache.map fun q =>
    if q.name = dependency then { q with usedBy := q.usedBy ++ [source] } else q

/-- One mutation step `packageCache[devDependency].usedByDev.push(pkg.name)`
(line 179); unknown names are skipped, as above (lines 180–182). -/
def pushUsedByDev (cache : List Package) (dependency source : String) : List Package :=
  cache.map fun q =>
    if q.name = dependency then { q with usedByDev := q.usedByDev ++ [source] } else q

/-- The initial cache entry built for each raw package
(lines 151–167): forward edges from the manifest, reverse edges
empty. -/
def toCachePackage (pkg : RawPackage) : Package :=
  { version := pkg.version
    name := pkg.name
    path := pkg.path
    usedBy := []
    usedByDev := []
    uses := getPrismaDependencies pkg.dependencies
    usesDev := getPrismaDependencies pkg.devDependencies }

/-- The reverse-edge pass over one package (lines 169–184): append this
package's name to `usedBy` of each of its `uses` targets and to
`usedByDev` of each of its `usesDev` targets. -/
def addReverseEdges (cache : List Package) (pkg : Package) : List Package :=
  let cache1 := pkg.uses.foldl (fun c dependency => pushUsedBy c dependency pkg.name) cache
  pkg.usesDev.foldl (fun c devDependency => pushUsedByDev c devDependency pkg.name) cache1

/-- `getPackageDependencies` (lines 150–187): first build the cache of
packages with forward edges `uses` / `usesDev` and empty reverse edges,
then walk every package's forward edges and append the reverse edges
`usedBy` / `usedByDev` on the targets that exist in the cache. -/
def getPackageDependencies (packages : List RawPackage) : List Package :=
  (packages.map toCachePackage).foldl addReverseEdges (packages.map toCachePackage)

/-- Loop body of `getCircularDependencies` (lines 201–203): the
intersection of a package's outbound and inbound edge sets. -/
def circlesOf (pkg : Package) : List String :=
  intersection (pkg.uses ++ pkg.usesDev) (pkg.usedBy ++ pkg.usedByDev)

/-- `getCircularDependencies` (lines 198–210). -/
def getCircularDependencies (packages : List Package) : List (List String) :=
  packages.foldl
    (fun circularDeps pkg =>
      if (circlesOf pkg).length > 0 then circularDeps ++ [circlesOf pkg]
      else circularDeps)
    []

/-! ## Change-impact resolver (lines 212–245) -/

/-- `addDependants` (lines 225–238): depth-first expansion of the
affected set along `usedBy` then `usedByDev` edges.  The two source
loops have identical bodies, so they are modelled as one fold over the
concatenation.  The source recursion terminates because a name is added
to the accumulator before each recursive call; here that is made
explicit with a fuel argument (`packages.length + 1` at every call site
is always enough, see `addDependants_closed`).  When a dependant name
has no package record the source would fail (it recurses into
`undefined`); that branch is unreachable for the graphs
`getPackageDependencies` builds, and the model leaves the accumulator
unchanged there. -/
def addDependants (packages : List Package) : Nat → Package → List String → List String
  | 0, _, affectedPackages => affectedPackages
  | fuel + 1, pkg, affectedPackages =>
    (pkg.usedBy ++ pkg.usedByDev).foldl
      (fun acc dependency =>
        if dependency ∈ acc then acc
        else
          match packages.find? (fun q => q.name = dependency) with
          | some dep => addDependants packages fuel dep (acc ++ [dependency])
          | none => acc)
      affectedPackages

/-- The loop body of `addDependants` for one dependant name (the shared
body of the two loops, lines 226–237), named so the proofs can speak
about it; `addDependants packages (fuel + 1) pkg acc` is literally
`(pkg.usedBy ++ pkg.usedByDev).foldl (dfsStep packages fuel) acc`. -/
def dfsStep (packages : List Package) (fuel : Nat) (acc : List String)
    (dependency : String) : List String :=
  if dependency ∈ acc then acc
  else
    match packages.find? (fun q => q.name = dependency) with
    | some dep => addDependants packages fuel dep (acc ++ [dependency])
    | none => acc

/-- `getPackagesAffectedByChange` (lines 212–245).  The source returns
the affected packages as a name-keyed map; the model returns the list
of affected package names in insertion order, which determines that
map. -/
def getPackagesAffectedByChange (packages : List Package) (changes : List String) :
    List String :=
  let changedPackages := packages.filter fun p =>
    changes.any fun c => strStartsWith c (dirname p.path)
  let affectedPackages := changedPackages.map fun p => p.name
  changedPackages.foldl
    (fun acc pkg => addDependants packages (packages.length + 1) pkg acc)
    affectedPackages

/-! ## Publish-order planner (lines 247–257)

`getPublishOrder` feeds the graph `name ↦ usedBy ++ usedByDev` to the
external npm package `batching-toposort`, whose code is not part of
this repository. -/

/-- Modelled from the spec: in-degree of `n` in the part of the DAG
whose source nodes have not been removed yet (edge multiplicity
counts, matching per-edge decrements in a Kahn algorithm). -/
def countInDegreeFrom (dag : List (String × List String)) (removed : List String)
    (n : String) : Nat :=
  ((dag.filter fun e => decide (e.1 ∉ removed)).map fun e => e.2.count n).sum

/-- Modelled from the spec: the next Kahn batch — every node not yet
removed whose remaining in-degree is zero. -/
def kahnBatch (dag : List (String × List String)) (removed : List String) :
    List String :=
  (dag.map fun e => e.1).filter fun n =>
    decide (n ∉ removed) && decide (countInDegreeFrom dag removed n = 0)

/-- Modelled from the spec: one Kahn-style layered pass — repeatedly
extract the set of zero-remaining-in-degree nodes as the next batch
until no node qualifies; succeed only if every node was emitted,
otherwise report the cycle as an error (`none`). -/
def kahnLayers (dag : List (String × List String)) :
    Nat → List String → Option (List (List String))
  | 0, removed =>
    if dag.all (fun e => decide (e.1 ∈ removed)) then some [] else none
  | fuel + 1, removed =>
    if (kahnBatch dag removed).isEmpty then
      if dag.all (fun e => decide (e.1 ∈ removed)) then some [] else none
    else
      match kahnLayers dag fuel (removed ++ kahnBatch dag removed) with
      | some rest => some (kahnBatch dag removed :: rest)
      | none => none

/-- Modelled from the spec: the external `batching-toposort` routine —
"standard Kahn-style layered topological sort …  Fails if the input
graph contains a cycle".  `none` models the thrown cycle error. -/
def batchingToposort (dag : List (String × List String)) : Option (List (List String)) :=
  kahnLayers dag (dag.length + 1) []

/-- `getPublishOrder` (lines 247–257): adjacency of each package is
`usedBy ++ usedByDev`, handed to `batching-toposort`. -/
def getPublishOrder (packages : List Package) : Option (List (List String)) :=
  batchingToposort (packages.map fun p => (p.name, p.usedBy ++ p.usedByDev))

/-! ## Change retrieval (lines 40–53) -/

/-- `getChangesFromCommit` (lines 40–53).  The git subprocess is an
external collaborator: its stdout is the `changes` argument.  A thrown
JS error is modelled by `Except.error` with the source's message. -/
def getChangesFromCommit (commit : Commit) (changes : String) :
    Except String (List String) :=
  if (jsTrim changes).length > 0 then
    Except.ok (((splitOnChar '\n' changes.data).map String.mk).map fun change =>
      pathJoin commit.dir change)
  else
    Except.error "No changes detected. This must not happen!"

/-! ## Version computation (lines 259–296) -/

/-- First match of the regex `alpha\.(\d+)` anchored at the start of
`l`: the literal `alpha.` followed by at least one digit, capturing the
maximal digit run. -/
def alphaMatchAt (l : List Char) : Option Nat :=
  if listStartsWith l ('a' :: 'l' :: 'p' :: 'h' :: 'a' :: '.' :: []) then
    match leadingDigits (l.drop 6) with
    | [] => none
    | ds => some (digitsToNat ds)
  else none

/-- `regex.exec` for `/alpha\.(\d+)/` followed by `Number` on the
capture (lines 275, 284–290): scan left to right for the first
position where the pattern matches. -/
def alphaExec : List Char → Option Nat
  | [] => none
  | c :: rest =>
    match alphaMatchAt (c :: rest) with
    | some n => some n
    | none => alphaExec rest

def alphaIncrementOf (v : String) : Option Nat :=
  alphaExec v.data

/-- JS truthiness of the `process.env.BUILDKITE_TAG` lookup (line 265):
an unset variable is `undefined` (falsy) and the empty string is also
falsy. -/
def envTruthy (v : Option String) : Bool :=
  match v with
  | some s => s.length > 0
  | none => false

/-- The string `Math.max(...alphaVersions) + 1` is interpolated into
(line 293–295).  On an empty list `Math.max()` is `-Infinity` and
`-Infinity + 1` is still `-Infinity`, which interpolates as the text
`-Infinity`. -/
def maxAlphaPlusOneStr (alphaVersions : List Nat) : String :=
  match alphaVersions with
  | [] => "-Infinity"
  | v :: vs => toString (vs.foldl max v + 1)

/-- `getNewPrisma2Version` (lines 264–296) on its pure inputs: the
environment override and the four considered version strings (local
`prisma2` and `@prisma/photon` versions, and the two npm registry
answers, which are external-collaborator inputs).  The source's
`.map(...)

.filter(v => v)` step drops both the `null`s of non-matching
strings and the falsy increment `0`, modelled by `filterMap` followed
by dropping zeros. -/
def alphaVersionsOf (versions : List String) : List Nat :=
  ((versions.filter fun v => (jsTrim v).length > 0).filterMap alphaIncrementOf).filter
    fun v => decide (v ≠ 0)

def getNewPrisma2Version (buildkiteTag : Option String)
    (localPrisma2Version localPhotonVersion remotePrisma2Version remotePhotonVersion :
      String) : String :=
  if envTruthy buildkiteTag then buildkiteTag.getD ""
  else
    "2.0.0-alpha." ++
      maxAlphaPlusOneStr (alphaVersionsOf [localPrisma2Version, localPhotonVersion,
        remotePrisma2Version, remotePhotonVersion])

/-- Version of a named package in the cache (`packages['prisma2'].version`
etc.); the script only evaluates this where the package exists. -/
def findVersion (packages : List Package) (pkgName : String) : String :=
  ((packages.find? fun p => p.name = pkgName).map fun p => p.version).getD ""

/-- `getNewPrisma2Version` as called in `publishPackages` (line 374),
reading the two local versions out of the package cache. -/
def getNewPrisma2VersionOf (buildkiteTag : Option String) (packages : List Package)
    (remotePrisma2Version remotePhotonVersion : String) : String :=
  getNewPrisma2Version buildkiteTag (findVersion packages "prisma2")
    (findVersion packages "@prisma/photon") remotePrisma2Version remotePhotonVersion

/-! ## Semver patch bump (lines 354–366) -/

def isIdentChar (c : Char) : Bool :=
  c.isDigit || c.isAlpha || c = '-'

/-- A numeric identifier of the semver grammar: digits with no leading
zero (`0 | [1-9]\d*`). -/
def numericNoLeadingZero (s : List Char) : Bool :=
  !s.isEmpty && s.all Char.isDigit && (decide (s = ['0']) || decide (s.head? ≠ some '0'))

/-- One prerelease identifier:
`0 | [1-9]\d* | \d*[a-zA-Z-][0-9a-zA-Z-]*`. -/
def validPreIdent (s : List Char) : Bool :=
  !s.isEmpty && s.all isIdentChar &&
    (!s.all Char.isDigit || numericNoLeadingZero s)

/-- One build-metadata identifier: `[0-9a-zA-Z-]+`. -/
def validBuildIdent (s : List Char) : Bool :=
  !s.isEmpty && s.all isIdentChar

/-- The capture groups `major`, `minor`, `patch` of the official semver
regex used by `patch` (line 356), or `none` when the version does not
match.  The regex is anchored and deterministic: the first `+` starts
the build metadata, the first `-` before it starts the prerelease, and
the version core must be exactly three dot-separated numeric
identifiers without leading zeros. -/
def semverGroups (version : String) : Option (String × String × String) :=
  match splitFirstChar '+' version.data with
  | (beforeBuild, buildPart) =>
    match splitFirstChar '-' beforeBuild with
    | (core, prePart) =>
      match splitOnChar '.' core with
      | [major, minor, patchDigits] =>
        if numericNoLeadingZero major && numericNoLeadingZero minor &&
            numericNoLeadingZero patchDigits &&
            (match prePart with
             | none => true
             | some pre => (splitOnChar '.' pre).all validPreIdent) &&
            (match buildPart with
             | none => true
             | some b => (splitOnChar '.' b).all validBuildIdent) then
          some (String.mk major, String.mk minor, String.mk patchDigits)
        else none
      | _ => none

/-- `patch` (lines 354–366): `major.minor.(patch+1)` for a semver
string, `null` otherwise. -/
def patch (version : String) : Option String :=
  match semverGroups version with
  | some (major, minor, patchDigits) =>
    some (major ++ "." ++ minor ++ "." ++ toString (digitsToNat patchDigits.data + 1))
  | none => none

/-! ## Publish / test passes (lines 298–344, 368–453) -/

/-- `['prisma2', '@prisma/photon'].includes(pkgName)` (lines 416–418). -/
def isPrisma2OrPhoton (pkgName : String) : Bool :=
  pkgName = "prisma2" || pkgName = "@prisma/photon"

/-- Tag selection in `publishPackages` (lines 419–422). -/
def publishTag (prisma2Version pkgName : String) : String :=
  if strContains prisma2Version "alpha" && isPrisma2OrPhoton pkgName then "alpha"
  else "latest"

/-- New-version selection in `publishPackages` (lines 423–425); `none`
models the JS `null` that `patch` can produce. -/
def publishNewVersion (prisma2Version pkgName pkgVersion : String) : Option String :=
  if isPrisma2OrPhoton pkgName then some prisma2Version else patch pkgVersion

/-- The per-package publish decisions of `publishPackages`
(lines 410–447) in execution order: batches are processed in order,
each batch sequentially (`concurrency: 1`). -/
def publishPlan (packages : List Package) (publishOrder : List (List String))
    (prisma2Version : String) : List (String × String × Option String) :=
  (flatten publishOrder).map fun pkgName =>
    (pkgName, publishTag prisma2Version pkgName,
      publishNewVersion prisma2Version pkgName (findVersion packages pkgName))

/-- `publishOrder.slice(3)` in `publish` (line 316): the publish order
actually used by both the test pass and the publish pass. -/
def publishOrderUsed (publishOrder : List (List String)) : List (List String) :=
  publishOrder.drop 3

/-- The packages `testPackages` (lines 330–344) runs `yarn test` for:
those of the flattened order whose manifest declares a test script. -/
def testRunNames (packages : List Package) (publishOrder : List (List String)) :
    List String :=
  (flatten publishOrder).filter fun pkgName =>
    match packages.find? fun p => p.name = pkgName with
    | some pkg => pkg.hasTestScript
    | none => false

/-- The packages `publishPackages` (lines 410–447) publishes: every
name of every batch it is given. -/
def publishRunNames (publishOrder : List (List String)) : List String :=
  flatten publishOrder

/-! ## Properties the claims quantify over -/

/-- A set of names (as a list) is closed under the dependant edges: it
contains the whole `usedBy` and `usedByDev` of every package it
contains. -/
def ClosedUnderDependants (packages : List Package) (S : List String) : Prop :=
  ∀ p ∈ packages, p.name ∈ S → ∀ n ∈ p.usedBy ++ p.usedByDev, n ∈ S

/-- Well-formedness of a package graph: every reverse-edge name is the
name of some package of the graph (this holds for every graph built by
`getPackageDependencies`, see `claim6_reverse_edges_known`). -/
def EdgesInGraph (packages : List Package) : Prop :=
  ∀ p ∈ packages, ∀ n ∈ p.usedBy ++ p.usedByDev, ∃ q ∈ packages, q.name = n

/-- The packages whose manifest directory some changed path starts
with: the `changedPackages` filter of `getPackagesAffectedByChange`
(lines 216–218). -/
def directlyChangedNames (packages : List Package) (changes : List String) : List String :=
  (packages.filter fun p => changes.any fun c => strStartsWith c (dirname p.path)).map
    fun p => p.name

/-- Number of package names not yet in the accumulator; the DFS fuel
bound. -/
def countMissing (packages : List Package) (acc : List String) : Nat :=
  ((packageNames packages).dedup.filter fun n => decide (n ∉ acc)).length

/-- A nonempty set of DAG nodes each of which has an in-edge from
inside the set: the witness shape of a cyclic input (every cycle of a
finite graph yields one, namely the set of nodes on the cycle). -/
def HasCycleSet (dag : List (String × List String)) (C : List String) : Prop :=
  C ≠ [] ∧ (∀ n ∈ C, n ∈ dag.map fun e => e.1) ∧
    ∀ n ∈ C, ∃ m ∈ C, ∃ e ∈ dag, e.1 = m ∧ n ∈ e.2

/-- The data of a cache entry that the reverse-edge pass of
`getPackageDependencies` never modifies: name and forward edges. -/
def strip (p : Package) : String × List String × List String :=
  (p.name, p.uses, p.usesDev)

/-- Every reverse-edge name in the cache is one of the names `N`. -/
def ReverseEdgesIn (N : List String) (cache : List Package) : Prop :=
  ∀ q ∈ cache, ∀ n ∈ q.usedBy ++ q.usedByDev, n ∈ N

/-- Every `usedBy` entry of the cache records an actual `uses` edge of
some package of `base`. -/
def UsedBySources (base cache : List Package) : Prop :=
  ∀ q ∈ cache, ∀ s ∈ q.usedBy, ∃ p ∈ base, p.name = s ∧ q.name ∈ p.uses

/-- Every `usedByDev` entry of the cache records an actual `usesDev`
edge of some package of `base`. -/
def UsedByDevSources (base cache : List Package) : Prop :=
  ∀ q ∈ cache, ∀ s ∈ q.usedByDev, ∃ p ∈ base, p.name = s ∧ q.name ∈ p.usesDev

/-- Follows the spec's words for C7: "the maximum observed alpha
increment across local and remote version strings" — the alpha
increments of the four considered version strings, with no truthiness
filtering. -/
def specObservedAlphaIncrements (packages : List Package)
    (remotePrisma2Version remotePhotonVersion : String) : List Nat :=
  [findVersion packages "prisma2", findVersion packages "@prisma/photon",
    remotePrisma2Version, remotePhotonVersion].filterMap alphaIncrementOf

/-! ## Concrete fixtures used by the claims' examples -/

/-- Chain fixture `A → B → C` (`a` uses `b`, `b` uses `c`), with the
reverse edges `getPackageDependencies` would produce. -/
def chainA : Package := { name := "a", path := "a/package.json", uses := ["b"] }

def chainB : Package :=
  { name := "b", path := "b/package.json", uses := ["c"], usedBy := ["a"] }

def chainC : Package := { name := "c", path := "c/package.json", usedBy := ["b"] }

def chainPkgs : List Package := [chainA, chainB, chainC]

/-- Diamond fixture: `a` and `b` both use `c`, and `d` uses both `a`
and `b`. -/
def diamondA : Package :=
  { name := "a", path := "a/package.json", uses := ["c"], usedBy := ["d"] }

def diamondB : Package :=
  { name := "b", path := "b/package.json", uses := ["c"], usedBy := ["d"] }

def diamondC : Package :=
  { name := "c", path := "c/package.json", usedBy := ["a", "b"] }

def diamondD : Package :=
  { name := "d", path := "d/package.json", uses := ["a", "b"] }

def diamondPkgs : List Package := [diamondA, diamondB, diamondC, diamondD]

/-- Direct mutual dependency fixture: `a` uses `b` and `b` uses `a`. -/
def mutualPkgs : List Package :=
  [{ name := "a", path := "a/package.json", uses := ["b"], usedBy := ["b"] },
   { name := "b", path := "b/package.json", uses := ["a"], usedBy := ["a"] }]

/-- Longer-cycle fixture `a → b → c → a`: `a` uses `b`, `b` uses `c`,
`c` uses `a`. -/
def threeCyclePkgs : List Package :=
  [{ name := "a", path := "a/package.json", uses := ["b"], usedBy := ["c"] },
   { name := "b", path := "b/package.json", uses := ["c"], usedBy := ["a"] },
   { name := "c", path := "c/package.json", uses := ["a"], usedBy := ["b"] }]

/-- A raw manifest depending on an `@prisma`-scoped package that is not
part of the discovered set. -/
def unknownDepRaw : RawPackage :=
  { name := "@prisma/a", path := "photonjs/packages/a/package.json",
    version := "1.0.0", dependencies := ["@prisma/unknown"] }

/-- Two raw manifests depending on each other (one as a runtime
dependency, one as a dev dependency). -/
def twoRaws : List RawPackage :=
  [{ name := "@prisma/a", path := "pa/package.json", version := "1.0.0",
     dependencies := ["@prisma/b", "external"] },
   { name := "@prisma/b", path := "pb/package.json", version := "1.0.0",
     devDependencies := ["@prisma/a"] }]

/-- The first entry of `getPackageDependencies twoRaws` as built by the
script. -/
def cookedA : Package :=
  { name := "@prisma/a", path := "pa/package.json", version := "1.0.0",
    usedBy := [], usedByDev := ["@prisma/b"], uses := ["@prisma/b"], usesDev := [] }

/-- The second entry of `getPackageDependencies twoRaws` as built by the
script. -/
def cookedB : Package :=
  { name := "@prisma/b", path := "pb/package.json", version := "1.0.0",
    usedBy := ["@prisma/a"], usedByDev := [], uses := [], usesDev := ["@prisma/a"] }

/-- Package cache fixture for the publish pass: the two core packages
with alpha versions. -/
def corePkgs : List Package :=
  [{ name := "prisma2", path := "prisma2/cli/prisma2/package.json",
     version := "2.0.0-alpha.5" },
   { name := "@prisma/photon", path := "photonjs/packages/photon/package.json",
     version := "2.0.0-alpha.11" }]

/-! ## Generic helper lemmas -/

theorem string_eq_of_data_eq {a b : String} (h : a.data = b.data) : a = b := by
  cases a; cases b; simp only at h; rw [h]

theorem length_pos_of_ne_empty {s : String} (h : s ≠ "") : 0 < s.length := by
  have hd : s.data ≠ [] := by
    intro he
    apply h
    cases s
    simp only at he
    rw [he]
  exact List.length_pos.mpr hd

theorem splitOnChar_ne_nil (c : Char) (l : List Char) : splitOnChar c l ≠ [] := by
  cases l with
  | nil => simp [splitOnChar]
  | cons x xs =>
    simp only [splitOnChar]
    cases h : splitOnChar c xs with
    | nil => simp
    | cons g gs =>
      by_cases hx : x = c <;> simp [hx]

theorem foldl_append_eq {T : Type} (l : List (List T)) :
    ∀ acc : List T, l.foldl (fun a v => a ++ v) acc = acc ++ l.flatten := by
  induction l with
  | nil => intro acc; simp
  | cons x xs ih =>
    intro acc
    simp only [List.foldl_cons, List.flatten_cons]
    rw [ih, List.append_assoc]

theorem flatten_eq {T : Type} (l : List (List T)) : flatten l = l.flatten := by
  unfold flatten
  rw [foldl_append_eq]
  simp

theorem mem_flatten_iff {T : Type} (a : T) (l : List (List T)) :
    a ∈ flatten l ↔ ∃ s ∈ l, a ∈ s := by
  rw [flatten_eq]
  exact List.mem_flatten

/-! ## C3 -/

theorem getCircularDependencies_aux (l : List Package) :
    ∀ acc : List (List String),
      (l.foldl
        (fun circularDeps pkg =>
          if (circlesOf pkg).length > 0 then circularDeps ++ [circlesOf pkg]
          else circularDeps)
        acc) = [] ↔
      acc = [] ∧ ∀ p ∈ l, circlesOf p = [] := by
  induction l with
  | nil => intro acc; simp
  | cons p rest ih =>
    intro acc
    simp only [List.foldl_cons]
    rw [ih]
    by_cases hc : (circlesOf p).length > 0
    · rw [if_pos hc]
      constructor
      · rintro ⟨h1, -⟩
        exact absurd h1 (by simp)
      · rintro ⟨-, h2⟩
        have := h2 p (List.mem_cons_self p rest)
        rw [this] at hc
        simp at hc
    · rw [if_neg hc]
      have hcz : circlesOf p = [] := by
        rcases List.eq_nil_or_concat (circlesOf p) with h | ⟨ys, y, hy⟩
        · exact h
        · rw [hy] at hc
          simp at hc
      constructor
      · rintro ⟨h1, h2⟩
        refine ⟨h1, fun q hq => ?_⟩
        rcases List.mem_cons.mp hq with rfl | hq'
        · exact hcz
        · exact h2 q hq'
      · rintro ⟨h1, h2⟩
        exact ⟨h1, fun q hq => h2 q (List.mem_cons_of_mem p hq)⟩

/-- C3: `getCircularDependencies` is non-empty exactly when some
package's outbound edge set (`uses ++ usesDev`) meets its inbound edge
set (`usedBy ++ usedByDev`); it is non-empty on a direct mutual
dependency, empty on a pure chain, and also empty on the longer cycle
`a → b → c → a` (the check catches only direct mutual dependencies). -/
theorem claim3_cycle_detector (packages : List Package) :
    (getCircularDependencies packages ≠ [] ↔
      ∃ p ∈ packages,
        intersection (p.uses ++ p.usesDev) (p.usedBy ++ p.usedByDev) ≠ []) ∧
    getCircularDependencies mutualPkgs ≠ [] ∧
    getCircularDependencies chainPkgs = [] ∧
    getCircularDependencies threeCyclePkgs = [] := by
  refine ⟨?_, by decide, by decide, by decide⟩
  unfold getCircularDependencies
  rw [not_iff_comm]
  push_neg
  rw [getCircularDependencies_aux]
  simp [circlesOf]

/-! ## C5 -/

/-- C5: `getChangesFromCommit` throws the "no changes" error whenever
the diff output is empty after trimming, and a successful result is
never the empty change list. -/
theorem claim5_empty_changes_throw :
    (∀ (commit : Commit) (changes : String), (jsTrim changes).length = 0 →
      getChangesFromCommit commit changes =
        Except.error "No changes detected. This must not happen!") ∧
    (∀ (commit : Commit) (changes : String) (l : List String),
      getChangesFromCommit commit changes = Except.ok l → l ≠ []) := by
  constructor
  · intro commit changes h
    unfold getChangesFromCommit
    rw [h]
    simp
  · intro commit changes l h
    unfold getChangesFromCommit at h
    by_cases hc : (jsTrim changes).length > 0
    · rw [if_pos hc] at h
      injection h with hl
      rw [← hl]
      intro hnil
      rcases List.map_eq_nil_iff.mp hnil with hmap
      rcases List.map_eq_nil_iff.mp hmap with hsplit
      exact splitOnChar_ne_nil '\n' changes.data hsplit
    · rw [if_neg hc] at h
      exact absurd h (by simp)

/-- C5 witness: the empty diff output is rejected. -/
theorem claim5_witness :
    getChangesFromCommit ⟨"prisma2", "h", false, []⟩ "" =
      Except.error "No changes detected. This must not happen!" :=
  claim5_empty_changes_throw.1 ⟨"prisma2", "h", false, []⟩ "" (by decide)

/-! ## C8 -/

/-- C8: the first three batches of the computed publish order are
unconditionally dropped before use, and a package appearing only in
those dropped batches is neither tested nor published. -/
theorem claim8_first_batches_dropped :
    (∀ publishOrder : List (List String),
      publishOrderUsed publishOrder = publishOrder.drop 3) ∧
    (∀ (packages : List Package) (publishOrder : List (List String)) (n : String),
      n ∈ flatten (publishOrder.take 3) → n ∉ flatten (publishOrder.drop 3) →
      n ∉ testRunNames packages (publishOrderUsed publishOrder) ∧
      n ∉ publishRunNames (publishOrderUsed publishOrder)) := by
  refine ⟨fun _ => rfl, ?_⟩
  intro packages publishOrder n _hin hnot
  constructor
  · intro hmem
    unfold testRunNames at hmem
    rw [List.mem_filter] at hmem
    exact hnot hmem.1
  · intro hmem
    exact hnot hmem

/-- C8 witness: a package only in the dropped leading batches of a
five-batch order is neither tested nor published. -/
theorem claim8_witness :
    "p0" ∉ testRunNames corePkgs (publishOrderUsed [["p0"], ["p1"], ["p2"], ["a"], ["b"]]) ∧
    "p0" ∉ publishRunNames (publishOrderUsed [["p0"], ["p1"], ["p2"], ["a"], ["b"]]) :=
  claim8_first_batches_dropped.2 corePkgs [["p0"], ["p1"], ["p2"], ["a"], ["b"]] "p0"
    (by decide) (by decide)

/-! ## C9 -/

/-- C9: `patch` returns `major.minor.(patch+1)` for every string
matching the semver grammar — discarding any prerelease or build
metadata, so `patch "2.0.1-alpha.5" = "2.0.2"` — and `null` (`none`)
otherwise; `publishPackages` uses the result for non-core packages
without a null check, so a non-semver current version yields a null new
version rather than an error. -/
theorem claim9_patch_semver :
    (∀ (v ma mi pa : String), semverGroups v = some (ma, mi, pa) →
      patch v = some (ma ++ "." ++ mi ++ "." ++ toString (digitsToNat pa.data + 1))) ∧
    (∀ v : String, semverGroups v = none → patch v = none) ∧
    patch "2.0.1-alpha.5" = some "2.0.2" ∧
    (∀ (prisma2Version pkgName pkgVersion : String),
      isPrisma2OrPhoton pkgName = false → semverGroups pkgVersion = none →
      publishNewVersion prisma2Version pkgName pkgVersion = none) := by
  refine ⟨?_, ?_, by decide, ?_⟩
  · intro v ma mi pa h
    unfold patch
    rw [h]
  · intro v h
    unfold patch
    rw [h]
  · intro prisma2Version pkgName pkgVersion h1 h2
    unfold publishNewVersion patch
    rw [h1, h2]
    simp

/-- C9 witness: a plain semver version is patch-bumped. -/
theorem claim9_witness :
    patch "1.2.3" =
      some ("1" ++ "." ++ "2" ++ "." ++ toString (digitsToNat "3".data + 1)) :=
  claim9_patch_semver.1 "1.2.3" "1" "2" "3" (by decide)

/-! ## C10 -/

/-- C10: without the environment override, an observed alpha increment
of `0` is discarded by the truthiness filter, and when none of the four
considered version strings has a positive alpha increment the maximum
is taken over an empty list, so `getNewPrisma2Version` returns the
string `2.0.0-alpha.-Infinity` instead of raising an error. -/
theorem claim10_minus_infinity_version :
    ∀ (buildkiteTag : Option String) (v1 v2 v3 v4 : String),
      envTruthy buildkiteTag = false →
      (∀ v ∈ [v1, v2, v3, v4],
        alphaIncrementOf v = none ∨ alphaIncrementOf v = some 0) →
      getNewPrisma2Version buildkiteTag v1 v2 v3 v4 = "2.0.0-alpha.-Infinity" := by
  intro buildkiteTag v1 v2 v3 v4 htag hzero
  unfold getNewPrisma2Version
  rw [htag]
  have hempty : alphaVersionsOf [v1, v2, v3, v4] = [] := by
    apply List.eq_nil_iff_forall_not_mem.mpr
    intro x hx
    unfold alphaVersionsOf at hx
    rw [List.mem_filter] at hx
    obtain ⟨hx1, hx2⟩ := hx
    rw [List.mem_filterMap] at hx1
    obtain ⟨v, hv, hva⟩ := hx1
    rw [List.mem_filter] at hv
    rcases hzero v hv.1 with h | h
    · rw [h] at hva
      exact absurd hva (by simp)
    · rw [h] at hva
      injection hva with hx0
      rw [← hx0] at hx2
      simp at hx2
  rw [hempty]
  simp [maxAlphaPlusOneStr]

/-- C10 witness: `2.0.0-alpha.0` has increment `0`, the other strings
none, and the computed version degenerates to `-Infinity`. -/
theorem claim10_witness :
    getNewPrisma2Version none "2.0.0-alpha.0" "1.0.0" "" "2.0.0" =
      "2.0.0-alpha.-Infinity" :=
  claim10_minus_infinity_version none "2.0.0-alpha.0" "1.0.0" "" "2.0.0"
    (by decide) (by decide)

/-! ## Graph-construction invariants (C6 and C4) -/

theorem foldl_preserves {α β : Type} (P : β → Prop) (f : β → α → β) :
    ∀ (l : List α) (acc : β), (∀ acc d, d ∈ l → P acc → P (f acc d)) →
      P acc → P (l.foldl f acc) := by
  intro l
  induction l with
  | nil =>
    intro acc _ h
    exact h
  | cons x xs ih =>
    intro acc hstep hacc
    simp only [List.foldl_cons]
    exact ih (f acc x) (fun a d hd ha => hstep a d (List.mem_cons_of_mem x hd) ha)
      (hstep acc x (List.mem_cons_self x xs) hacc)

theorem mem_pushUsedBy {q' : Package} {c : List Package} {d s : String}
    (h : q' ∈ pushUsedBy c d s) :
    ∃ q ∈ c, q' = q ∨ (q' = { q with usedBy := q.usedBy ++ [s] } ∧ q.name = d) := by
  unfold pushUsedBy at h
  rw [List.mem_map] at h
  obtain ⟨q, hq, hq'⟩ := h
  refine ⟨q, hq, ?_⟩
  by_cases hn : q.name = d
  · right
    rw [if_pos hn] at hq'
    exact ⟨hq'.symm, hn⟩
  · left
    rw [if_neg hn] at hq'
    exact hq'.symm

theorem mem_pushUsedByDev {q' : Package} {c : List Package} {d s : String}
    (h : q' ∈ pushUsedByDev c d s) :
    ∃ q ∈ c, q' = q ∨ (q' = { q with usedByDev := q.usedByDev ++ [s] } ∧ q.name = d) := by
  unfold pushUsedByDev at h
  rw [List.mem_map] at h
  obtain ⟨q, hq, hq'⟩ := h
  refine ⟨q, hq, ?_⟩
  by_cases hn : q.name = d
  · right
    rw [if_pos hn] at hq'
    exact ⟨hq'.symm, hn⟩
  · left
    rw [if_neg hn] at hq'
    exact hq'.symm

theorem strip_pushUsedBy (c : List Package) (d s : String) :
    (pushUsedBy c d s).map strip = c.map strip := by
  unfold pushUsedBy
  rw [List.map_map]
  apply List.map_congr_left
  intro q _
  simp only [Function.comp_apply]
  split_ifs <;> rfl

theorem strip_pushUsedByDev (c : List Package) (d s : String) :
    (pushUsedByDev c d s).map strip = c.map strip := by
  unfold pushUsedByDev
  rw [List.map_map]
  apply List.map_congr_left
  intro q _
  simp only [Function.comp_apply]
  split_ifs <;> rfl

theorem packageNames_eq_of_strip_eq {c₁ c₂ : List Package}
    (h : c₁.map strip = c₂.map strip) : packageNames c₁ = packageNames c₂ := by
  unfold packageNames
  have h1 : (c₁.map strip).map (fun t => t.1) = (c₂.map strip).map (fun t => t.1) := by
    rw [h]
  rw [List.map_map, List.map_map] at h1
  exact h1

theorem ReverseEdgesIn_pushUsedBy {N : List String} {c : List Package} {d s : String}
    (h : ReverseEdgesIn N c) (hs : s ∈ N) : ReverseEdgesIn N (pushUsedBy c d s) := by
  intro q' hq' n hn
  obtain ⟨q, hq, hcase⟩ := mem_pushUsedBy hq'
  have hbase := h q hq n
  rcases hcase with rfl | ⟨hq'eq, -⟩
  · exact hbase hn
  · subst hq'eq
    simp only [List.mem_append] at hn hbase
    rcases hn with (hn | hn) | hn
    · exact hbase (Or.inl hn)
    · rw [List.mem_singleton] at hn
      subst hn
      exact hs
    · exact hbase (Or.inr hn)

theorem ReverseEdgesIn_pushUsedByDev {N : List String} {c : List Package} {d s : String}
    (h : ReverseEdgesIn N c) (hs : s ∈ N) : ReverseEdgesIn N (pushUsedByDev c d s) := by
  intro q' hq' n hn
  obtain ⟨q, hq, hcase⟩ := mem_pushUsedByDev hq'
  have hbase := h q hq n
  rcases hcase with rfl | ⟨hq'eq, -⟩
  · exact hbase hn
  · subst hq'eq
    simp only [List.mem_append] at hn hbase
    rcases hn with hn | (hn | hn)
    · exact hbase (Or.inl hn)
    · exact hbase (Or.inr hn)
    · rw [List.mem_singleton] at hn
      subst hn
      exact hs

theorem strip_and_reverse_addReverseEdges {N : List String} {base : List Package}
    {c : List Package} {pkg : Package} (hpkg : pkg.name ∈ N)
    (h : c.map strip = base.map strip ∧ ReverseEdgesIn N c) :
    (addReverseEdges c pkg).map strip = base.map strip ∧
      ReverseEdgesIn N (addReverseEdges c pkg) := by
  unfold addReverseEdges
  apply foldl_preserves
    (P := fun c => c.map strip = base.map strip ∧ ReverseEdgesIn N c)
  · intro acc d _ hacc
    exact ⟨by rw [strip_pushUsedByDev, hacc.1], ReverseEdgesIn_pushUsedByDev hacc.2 hpkg⟩
  · apply foldl_preserves
      (P := fun c => c.map strip = base.map strip ∧ ReverseEdgesIn N c)
    · intro acc d _ hacc
      exact ⟨by rw [strip_pushUsedBy, hacc.1], ReverseEdgesIn_pushUsedBy hacc.2 hpkg⟩
    · exact h

theorem getPackageDependencies_invariants (raws : List RawPackage) :
    (getPackageDependencies raws).map strip = (raws.map toCachePackage).map strip ∧
      ReverseEdgesIn (packageNames (raws.map toCachePackage))
        (getPackageDependencies raws) := by
  unfold getPackageDependencies
  apply foldl_preserves
    (P := fun c => c.map strip = (raws.map toCachePackage).map strip ∧
      ReverseEdgesIn (packageNames (raws.map toCachePackage)) c)
  · intro acc pkg hd hacc
    apply strip_and_reverse_addReverseEdges _ hacc
    unfold packageNames
    exact List.mem_map.mpr ⟨pkg, hd, rfl⟩
  · constructor
    · rfl
    · intro q hq n hn
      rw [List.mem_map] at hq
      obtain ⟨r, -, hr⟩ := hq
      rw [← hr] at hn
      simp [toCachePackage] at hn

/-- C6 counterexample: after graph construction a package's `uses` list
can retain an `@prisma`-scoped dependency name that is not a key of the
discovered package set — the name is NOT dropped from `uses`. -/
theorem claim6_counterexample :
    ∃ p ∈ getPackageDependencies [unknownDepRaw], ∃ n ∈ p.uses ++ p.usesDev,
      ∀ q ∈ getPackageDependencies [unknownDepRaw], q.name ≠ n := by
  decide

/-- C6 (amended): after graph construction, every name in every
package's `usedBy` and `usedByDev` lists is a key of the discovered
package set; dependency names outside the discovered set are skipped
(with a warning) when the reverse edges are built, but remain in the
`uses` / `usesDev` lists. -/
theorem claim6_reverse_edges_known (raws : List RawPackage) :
    ∀ p ∈ getPackageDependencies raws, ∀ n ∈ p.usedBy ++ p.usedByDev,
      ∃ q ∈ getPackageDependencies raws, q.name = n := by
  obtain ⟨hstrip, hrev⟩ := getPackageDependencies_invariants raws
  intro p hp n hn
  have hnN := hrev p hp n hn
  rw [← packageNames_eq_of_strip_eq hstrip] at hnN
  unfold packageNames at hnN
  rw [List.mem_map] at hnN
  obtain ⟨q, hq, hqn⟩ := hnN
  exact ⟨q, hq, hqn⟩

/-- C6 witness: the reverse-edge name in the cooked two-package graph is
a key of the graph. -/
theorem claim6_witness : ∃ q ∈ getPackageDependencies twoRaws, q.name = "@prisma/a" :=
  claim6_reverse_edges_known twoRaws cookedB (by decide) "@prisma/a" (by decide)

/-! ## C4 -/

theorem UsedBySources_pushUsedBy {base c : List Package} {d s : String}
    (h : UsedBySources base c) (hsrc : ∃ p ∈ base, p.name = s ∧ d ∈ p.uses) :
    UsedBySources base (pushUsedBy c d s) := by
  intro q' hq' t ht
  obtain ⟨q, hq, hcase⟩ := mem_pushUsedBy hq'
  have hbase := h q hq t
  rcases hcase with rfl | ⟨hq'eq, hname⟩
  · exact hbase ht
  · subst hq'eq
    rcases List.mem_append.mp ht with ht' | ht'
    · exact hbase ht'
    · rw [List.mem_singleton] at ht'
      subst ht'
      obtain ⟨p, hp, hps, hpd⟩ := hsrc
      refine ⟨p, hp, hps, ?_⟩
      show q.name ∈ p.uses
      rw [hname]
      exact hpd

theorem UsedBySources_pushUsedByDev {base c : List Package} {d s : String}
    (h : UsedBySources base c) : UsedBySources base (pushUsedByDev c d s) := by
  intro q' hq' t ht
  obtain ⟨q, hq, hcase⟩ := mem_pushUsedByDev hq'
  have hbase := h q hq t
  rcases hcase with rfl | ⟨hq'eq, -⟩
  · exact hbase ht
  · subst hq'eq
    exact hbase ht

theorem UsedByDevSources_pushUsedBy {base c : List Package} {d s : String}
    (h : UsedByDevSources base c) : UsedByDevSources base (pushUsedBy c d s) := by
  intro q' hq' t ht
  obtain ⟨q, hq, hcase⟩ := mem_pushUsedBy hq'
  have hbase := h q hq t
  rcases hcase with rfl | ⟨hq'eq, -⟩
  · exact hbase ht
  · subst hq'eq
    exact hbase ht

theorem UsedByDevSources_pushUsedByDev {base c : List Package} {d s : String}
    (h : UsedByDevSources base c) (hsrc : ∃ p ∈ base, p.name = s ∧ d ∈ p.usesDev) :
    UsedByDevSources base (pushUsedByDev c d s) := by
  intro q' hq' t ht
  obtain ⟨q, hq, hcase⟩ := mem_pushUsedByDev hq'
  have hbase := h q hq t
  rcases hcase with rfl | ⟨hq'eq, hname⟩
  · exact hbase ht
  · subst hq'eq
    rcases List.mem_append.mp ht with ht' | ht'
    · exact hbase ht'
    · rw [List.mem_singleton] at ht'
      subst ht'
      obtain ⟨p, hp, hps, hpd⟩ := hsrc
      refine ⟨p, hp, hps, ?_⟩
      show q.name ∈ p.usesDev
      rw [hname]
      exact hpd

theorem sources_addReverseEdges {base c : List Package} {pkg : Package}
    (hpkg : pkg ∈ base)
    (h : UsedBySources base c ∧ UsedByDevSources base c) :
    UsedBySources base (addReverseEdges c pkg) ∧
      UsedByDevSources base (addReverseEdges c pkg) := by
  unfold addReverseEdges
  apply foldl_preserves (P := fun c => UsedBySources base c ∧ UsedByDevSources base c)
  · intro acc d hd hacc
    exact ⟨UsedBySources_pushUsedByDev hacc.1,
      UsedByDevSources_pushUsedByDev hacc.2 ⟨pkg, hpkg, rfl, hd⟩⟩
  · apply foldl_preserves (P := fun c => UsedBySources base c ∧ UsedByDevSources base c)
    · intro acc d hd hacc
      exact ⟨UsedBySources_pushUsedBy hacc.1 ⟨pkg, hpkg, rfl, hd⟩,
        UsedByDevSources_pushUsedBy hacc.2⟩
    · exact h

theorem getPackageDependencies_sources (raws : List RawPackage) :
    UsedBySources (raws.map toCachePackage) (getPackageDependencies raws) ∧
      UsedByDevSources (raws.map toCachePackage) (getPackageDependencies raws) := by
  unfold getPackageDependencies
  apply foldl_preserves
    (P := fun c => UsedBySources (raws.map toCachePackage) c ∧
      UsedByDevSources (raws.map toCachePackage) c)
  · intro acc pkg hd hacc
    exact sources_addReverseEdges hd hacc
  · constructor
    · intro q hq t ht
      rw [List.mem_map] at hq
      obtain ⟨r, -, hr⟩ := hq
      rw [← hr] at ht
      simp [toCachePackage] at ht
    · intro q hq t ht
      rw [List.mem_map] at hq
      obtain ⟨r, -, hr⟩ := hq
      rw [← hr] at ht
      simp [toCachePackage] at ht

theorem base_names (raws : List RawPackage) :
    (raws.map toCachePackage).map (fun p : Package => p.name) =
      raws.map fun r => r.name := by
  rw [List.map_map]
  apply List.map_congr_left
  intro r _
  rfl

/-- C4: in every graph produced by `getPackageDependencies`, if `P`'s
name is in `Q`'s `usedBy` then `Q`'s name is in `P`'s `uses` or
`usesDev`; likewise for `usedByDev` (edge-symmetry invariant of graph
construction).  Manifest names are pairwise distinct because the raw
package map is keyed by name. -/
theorem claim4_edge_symmetry (raws : List RawPackage)
    (hnodup : (raws.map fun r => r.name).Nodup) :
    ∀ P ∈ getPackageDependencies raws, ∀ Q ∈ getPackageDependencies raws,
      (P.name ∈ Q.usedBy → Q.name ∈ P.uses ++ P.usesDev) ∧
      (P.name ∈ Q.usedByDev → Q.name ∈ P.uses ++ P.usesDev) := by
  intro P hP Q hQ
  obtain ⟨hUB, hUBD⟩ := getPackageDependencies_sources raws
  obtain ⟨hstrip, -⟩ := getPackageDependencies_invariants raws
  have hPs : strip P ∈ (raws.map toCachePackage).map strip := by
    rw [← hstrip]
    exact List.mem_map.mpr ⟨P, hP, rfl⟩
  rw [List.mem_map] at hPs
  obtain ⟨p₁, hp₁, hp₁s⟩ := hPs
  have hp₁name : p₁.name = P.name := congrArg (fun t => t.1) hp₁s
  have hp₁uses : p₁.uses = P.uses := congrArg (fun t => t.2.1) hp₁s
  have hp₁usesDev : p₁.usesDev = P.usesDev := congrArg (fun t => t.2.2) hp₁s
  have hbnodup : ((raws.map toCachePackage).map (fun p : Package => p.name)).Nodup := by
    rw [base_names]
    exact hnodup
  constructor
  · intro h
    obtain ⟨p₀, hp₀, hp₀name, hp₀uses⟩ := hUB Q hQ P.name h
    have hpe : p₀ = p₁ :=
      List.inj_on_of_nodup_map hbnodup hp₀ hp₁ (by rw [hp₀name, hp₁name])
    rw [hpe, hp₁uses] at hp₀uses
    exact List.mem_append.mpr (Or.inl hp₀uses)
  · intro h
    obtain ⟨p₀, hp₀, hp₀name, hp₀uses⟩ := hUBD Q hQ P.name h
    have hpe : p₀ = p₁ :=
      List.inj_on_of_nodup_map hbnodup hp₀ hp₁ (by rw [hp₀name, hp₁name])
    rw [hpe, hp₁usesDev] at hp₀uses
    exact List.mem_append.mpr (Or.inr hp₀uses)

/-- C4 witness: in the cooked two-package graph, `@prisma/a` is in
`usedBy` of `@prisma/b`, and indeed `@prisma/b` is in the `uses` of
`@prisma/a`. -/
theorem claim4_witness : cookedB.name ∈ cookedA.uses ++ cookedA.usesDev :=
  (claim4_edge_symmetry twoRaws (by decide) cookedA (by decide) cookedB
    (by decide)).1 (by decide)

/-! ## C7 -/

theorem listStartsWith_head {x y : Char} {xs ys : List Char}
    (h : listStartsWith (x :: xs) (y :: ys) = true) : x = y := by
  unfold listStartsWith at h
  rw [Bool.and_eq_true] at h
  exact decide_eq_true_eq.mp h.1

theorem alphaMatchAt_starts {l : List Char} {n : Nat} (h : alphaMatchAt l = some n) :
    listStartsWith l ('a' :: 'l' :: 'p' :: 'h' :: 'a' :: '.' :: []) = true := by
  unfold alphaMatchAt at h
  by_cases hs : listStartsWith l ('a' :: 'l' :: 'p' :: 'h' :: 'a' :: '.' :: []) = true
  · exact hs
  · rw [if_neg hs] at h
    exact absurd h (by simp)

theorem alphaExec_mem_a {l : List Char} {n : Nat} (h : alphaExec l = some n) :
    'a' ∈ l := by
  induction l with
  | nil => simp [alphaExec] at h
  | cons c rest ih =>
    rw [alphaExec] at h
    cases hm : alphaMatchAt (c :: rest) with
    | some k =>
      have hc : c = 'a' :=
        listStartsWith_head (alphaMatchAt_starts hm)
      rw [hc]
      exact List.mem_cons_self 'a' rest
    | none =>
      rw [hm] at h
      exact List.mem_cons_of_mem c (ih h)

theorem all_whitespace_of_trimChars_nil {l : List Char} (h : trimChars l = []) :
    ∀ c ∈ l, c.isWhitespace = true := by
  unfold trimChars at h
  rw [List.reverse_eq_nil_iff] at h
  rw [List.dropWhile_eq_nil_iff] at h
  have hdrop : ∀ c ∈ l.dropWhile Char.isWhitespace, c.isWhitespace = true := by
    intro c hc
    exact h c (List.mem_reverse.mpr hc)
  intro c hc
  rw [← List.takeWhile_append_dropWhile (p := Char.isWhitespace) (l := l)] at hc
  rcases List.mem_append.mp hc with hc' | hc'
  · exact List.mem_takeWhile_imp hc'
  · exact hdrop c hc'

theorem jsTrim_length_pos_of_alpha {v : String} {n : Nat}
    (h : alphaIncrementOf v = some n) : 0 < (jsTrim v).length := by
  have ha : 'a' ∈ v.data := alphaExec_mem_a h
  show 0 < (trimChars v.data).length
  rcases hnil : trimChars v.data with _ | ⟨c, cs⟩
  · have := all_whitespace_of_trimChars_nil hnil 'a' ha
    simp at this
  · simp

theorem foldl_max_eq {m : Nat} :
    ∀ (l : List Nat) (a : Nat), (∀ x ∈ l, x ≤ m) → a ≤ m → (a = m ∨ m ∈ l) →
      l.foldl max a = m := by
  intro l
  induction l with
  | nil =>
    intro a _ _ hm
    rcases hm with rfl | hm
    · rfl
    · simp at hm
  | cons x xs ih =>
    intro a hall ha hm
    simp only [List.foldl_cons]
    apply ih
    · intro y hy
      exact hall y (List.mem_cons_of_mem x hy)
    · exact max_le ha (hall x (List.mem_cons_self x xs))
    · rcases hm with rfl | hm
      · left
        exact max_eq_left (hall x (List.mem_cons_self x xs))
      · rcases List.mem_cons.mp hm with rfl | hm'
        · left
          exact max_eq_right ha
        · right
          exact hm'

theorem maxAlphaPlusOneStr_eq {l : List Nat} {m : Nat} (hm : m ∈ l)
    (hmax : ∀ x ∈ l, x ≤ m) : maxAlphaPlusOneStr l = toString (m + 1) := by
  cases l with
  | nil => simp at hm
  | cons v vs =>
    show toString (vs.foldl max v + 1) = toString (m + 1)
    have : vs.foldl max v = m := by
      apply foldl_max_eq
      · intro y hy
        exact hmax y (List.mem_cons_of_mem v hy)
      · exact hmax v (List.mem_cons_self v vs)
      · rcases List.mem_cons.mp hm with rfl | hm'
        · left
          rfl
        · right
          exact hm'
    rw [this]

theorem mem_alphaVersionsOf {versions : List String} {v : String} {m : Nat}
    (hv : v ∈ versions) (hva : alphaIncrementOf v = some m) (hpos : m ≠ 0) :
    m ∈ alphaVersionsOf versions := by
  unfold alphaVersionsOf
  rw [List.mem_filter]
  refine ⟨?_, by simpa using hpos⟩
  rw [List.mem_filterMap]
  refine ⟨v, ?_, hva⟩
  rw [List.mem_filter]
  exact ⟨hv, by simpa using jsTrim_length_pos_of_alpha hva⟩

theorem alphaVersionsOf_observed {versions : List String} {k : Nat}
    (hk : k ∈ alphaVersionsOf versions) : k ∈ versions.filterMap alphaIncrementOf := by
  unfold alphaVersionsOf at hk
  rw [List.mem_filter] at hk
  obtain ⟨hk1, -⟩ := hk
  rw [List.mem_filterMap] at hk1
  obtain ⟨v, hv, hva⟩ := hk1
  rw [List.mem_filter] at hv
  exact List.mem_filterMap.mpr ⟨v, hv.1, hva⟩

/-- C7: in publish mode, a package in a batch gets the computed core
version when it is `prisma2` or `@prisma/photon` and the
patch-increment of its own version otherwise; the tag is `alpha`
exactly when the core version string contains `alpha` and the package
is core, else `latest`; and the computed core version is the
environment override when a non-empty one is present, else
`2.0.0-alpha.(max+1)` where `max` is the maximum (positive) alpha
increment observed across the local and remote version strings. -/
theorem claim7_publish_version_and_tag :
    ∀ (packages : List Package) (publishOrder : List (List String))
      (buildkiteTag : Option String)
      (remotePrisma2Version remotePhotonVersion : String) (pv : String),
      pv = getNewPrisma2VersionOf buildkiteTag packages remotePrisma2Version
          remotePhotonVersion →
      (∀ pkgName tag newVersion,
        (pkgName, tag, newVersion) ∈ publishPlan packages publishOrder pv →
        (isPrisma2OrPhoton pkgName = true →
          newVersion = some pv ∧ (tag = "alpha" ↔ strContains pv "alpha" = true)) ∧
        (isPrisma2OrPhoton pkgName = false →
          newVersion = patch (findVersion packages pkgName) ∧ tag = "latest")) ∧
      (∀ t, buildkiteTag = some t → t ≠ "" → pv = t) ∧
      (envTruthy buildkiteTag = false →
        ∀ m, 0 < m →
          m ∈ specObservedAlphaIncrements packages remotePrisma2Version
            remotePhotonVersion →
          (∀ k ∈ specObservedAlphaIncrements packages remotePrisma2Version
            remotePhotonVersion, k ≤ m) →
          pv = "2.0.0-alpha." ++ toString (m + 1)) := by
  intro packages publishOrder buildkiteTag remotePrisma2Version remotePhotonVersion
    pv hpv
  refine ⟨?_, ?_, ?_⟩
  · intro pkgName tag newVersion hmem
    unfold publishPlan at hmem
    rw [List.mem_map] at hmem
    obtain ⟨n, -, heq⟩ := hmem
    rw [Prod.mk.injEq] at heq
    obtain ⟨rfl, heq2⟩ := heq
    rw [Prod.mk.injEq] at heq2
    obtain ⟨htag, hnv⟩ := heq2
    constructor
    · intro hcore
      constructor
      · rw [← hnv]
        unfold publishNewVersion
        rw [hcore]
        simp
      · rw [← htag]
        unfold publishTag
        by_cases hsc : strContains pv "alpha" = true
        · rw [hsc, hcore]
          simp
        · rw [Bool.not_eq_true] at hsc
          rw [hsc]
          simp
    · intro hncore
      constructor
      · rw [← hnv]
        unfold publishNewVersion
        rw [hncore]
        simp
      · rw [← htag]
        unfold publishTag
        rw [hncore]
        simp
  · intro t ht hne
    subst hpv
    rw [ht]
    unfold getNewPrisma2VersionOf getNewPrisma2Version
    rw [if_pos (by simp [envTruthy, length_pos_of_ne_empty hne])]
    rfl
  · intro htag m hpos hm hmax
    subst hpv
    unfold getNewPrisma2VersionOf getNewPrisma2Version
    rw [htag]
    simp only [Bool.false_eq_true, if_false]
    congr 1
    unfold specObservedAlphaIncrements at hm hmax
    rw [List.mem_filterMap] at hm
    obtain ⟨v, hv, hva⟩ := hm
    apply maxAlphaPlusOneStr_eq
    · exact mem_alphaVersionsOf hv hva (Nat.pos_iff_ne_zero.mp hpos)
    · intro k hk
      exact hmax k (alphaVersionsOf_observed hk)

/-- C7 witness: with no override, the maximum observed alpha increment
across `2.0.0-alpha.5`, `2.0.0-alpha.11` and `2.0.0-alpha.7` is `11`,
so the computed version is `2.0.0-alpha.12`. -/
theorem claim7_witness :
    getNewPrisma2VersionOf none corePkgs "2.0.0-alpha.7" "" =
      "2.0.0-alpha." ++ toString (11 + 1) :=
  ((claim7_publish_version_and_tag corePkgs [] none "2.0.0-alpha.7" ""
      (getNewPrisma2VersionOf none corePkgs "2.0.0-alpha.7" "") rfl).2.2
    (by decide) 11 (by decide) (by decide) (by decide))

/-! ## C1: change-impact resolver -/

theorem addDependants_succ (packages : List Package) (fuel : Nat) (pkg : Package)
    (acc : List String) :
    addDependants packages (fuel + 1) pkg acc =
      (pkg.usedBy ++ pkg.usedByDev).foldl (dfsStep packages fuel) acc := rfl

theorem dfsStep_mem (packages : List Package) (fuel : Nat) {acc : List String}
    {d : String} (h : d ∈ acc) : dfsStep packages fuel acc d = acc := by
  unfold dfsStep
  rw [if_pos h]

theorem dfsStep_found (packages : List Package) (fuel : Nat) {acc : List String}
    {d : String} {dep : Package} (h : d ∉ acc)
    (hf : packages.find? (fun q => q.name = d) = some dep) :
    dfsStep packages fuel acc d = addDependants packages fuel dep (acc ++ [d]) := by
  unfold dfsStep
  rw [if_neg h, hf]

theorem dfsStep_notfound (packages : List Package) (fuel : Nat) {acc : List String}
    {d : String} (h : d ∉ acc)
    (hf : packages.find? (fun q => q.name = d) = none) :
    dfsStep packages fuel acc d = acc := by
  unfold dfsStep
  rw [if_neg h, hf]

theorem addDependants_mono (packages : List Package) :
    ∀ (fuel : Nat) (pkg : Package) (acc : List String) (x : String), x ∈ acc →
      x ∈ addDependants packages fuel pkg acc := by
  intro fuel
  induction fuel with
  | zero =>
    intro pkg acc x hx
    exact hx
  | succ fuel ih =>
    intro pkg acc x hx
    rw [addDependants_succ]
    apply foldl_preserves (P := fun a => x ∈ a)
    · intro a d _ ha
      by_cases hmem : d ∈ a
      · rw [dfsStep_mem packages fuel hmem]
        exact ha
      · cases hfind : packages.find? (fun q => q.name = d) with
        | some dep =>
          rw [dfsStep_found packages fuel hmem hfind]
          exact ih dep (a ++ [d]) x (List.mem_append.mpr (Or.inl ha))
        | none =>
          rw [dfsStep_notfound packages fuel hmem hfind]
          exact ha
    · exact hx

theorem addDependants_nodup (packages : List Package) :
    ∀ (fuel : Nat) (pkg : Package) (acc : List String), acc.Nodup →
      (addDependants packages fuel pkg acc).Nodup := by
  intro fuel
  induction fuel with
  | zero =>
    intro pkg acc h
    exact h
  | succ fuel ih =>
    intro pkg acc hacc
    rw [addDependants_succ]
    apply foldl_preserves (P := fun a : List String => a.Nodup)
    · intro a d _ ha
      by_cases hmem : d ∈ a
      · rw [dfsStep_mem packages fuel hmem]
        exact ha
      · cases hfind : packages.find? (fun q => q.name = d) with
        | some dep =>
          rw [dfsStep_found packages fuel hmem hfind]
          apply ih
          rw [List.nodup_append]
          exact ⟨ha, List.nodup_singleton d, by
            intro x hxa hxd
            rw [List.mem_singleton] at hxd
            subst hxd
            exact hmem hxa⟩
        | none =>
          rw [dfsStep_notfound packages fuel hmem hfind]
          exact ha
    · exact hacc

theorem addDependants_sound (packages : List Package) (S : List String)
    (hclosed : ClosedUnderDependants packages S) :
    ∀ (fuel : Nat) (pkg : Package) (acc : List String),
      pkg ∈ packages → pkg.name ∈ S → (∀ x ∈ acc, x ∈ S) →
      ∀ x ∈ addDependants packages fuel pkg acc, x ∈ S := by
  intro fuel
  induction fuel with
  | zero =>
    intro pkg acc _ _ hacc x hx
    exact hacc x hx
  | succ fuel ih =>
    intro pkg acc hpkg hpname hacc
    rw [addDependants_succ]
    have hstep : ∀ (a : List String) (d : String),
        d ∈ pkg.usedBy ++ pkg.usedByDev → (∀ x ∈ a, x ∈ S) →
        ∀ x ∈ dfsStep packages fuel a d, x ∈ S := by
      intro a d hd ha
      by_cases hmem : d ∈ a
      · rw [dfsStep_mem packages fuel hmem]
        exact ha
      · have hdS : d ∈ S := hclosed pkg hpkg hpname d hd
        cases hfind : packages.find? (fun q => q.name = d) with
        | some dep =>
          rw [dfsStep_found packages fuel hmem hfind]
          have hdepname : dep.name = d := by
            have := List.find?_some hfind
            simpa using this
          apply ih dep (a ++ [d]) (List.mem_of_find?_eq_some hfind)
            (by rw [hdepname]; exact hdS)
          intro x hx
          rcases List.mem_append.mp hx with hx' | hx'
          · exact ha x hx'
          · rw [List.mem_singleton] at hx'
            subst hx'
            exact hdS
        | none =>
          rw [dfsStep_notfound packages fuel hmem hfind]
          exact ha
    exact foldl_preserves (P := fun a => ∀ x ∈ a, x ∈ S) _ _ _
      (fun a d hd ha => hstep a d hd ha) hacc

theorem length_filter_mono {α : Type} (p q : α → Bool) :
    ∀ L : List α, (∀ x ∈ L, p x = true → q x = true) →
      (L.filter p).length ≤ (L.filter q).length := by
  intro L
  induction L with
  | nil =>
    intro _
    simp
  | cons x xs ih =>
    intro h
    have ih' := ih fun y hy hp => h y (List.mem_cons_of_mem x hy) hp
    by_cases hp : p x = true
    · have hq := h x (List.mem_cons_self x xs) hp
      rw [List.filter_cons_of_pos hp, List.filter_cons_of_pos hq]
      simpa using ih'
    · rw [List.filter_cons_of_neg (by simpa using hp)]
      by_cases hq : q x = true
      · rw [List.filter_cons_of_pos hq]
        exact Nat.le_trans ih' (Nat.le_succ _)
      · rw [List.filter_cons_of_neg (by simpa using hq)]
        exact ih'

theorem length_filter_lt {α : Type} (p q : α → Bool) (d : α) :
    ∀ L : List α, d ∈ L → p d = false → q d = true →
      (∀ x ∈ L, p x = true → q x = true) →
      (L.filter p).length < (L.filter q).length := by
  intro L
  induction L with
  | nil =>
    intro h
    simp at h
  | cons x xs ih =>
    intro hd hpd hqd h
    rcases List.mem_cons.mp hd with rfl | hd'
    · rw [List.filter_cons_of_neg (by simpa using hpd), List.filter_cons_of_pos hqd]
      have := length_filter_mono p q xs fun y hy hp => h y (List.mem_cons_of_mem _ hy) hp
      exact Nat.lt_succ_of_le this
    · have ih' := ih hd' hpd hqd fun y hy hp => h y (List.mem_cons_of_mem x hy) hp
      by_cases hp : p x = true
      · have hq := h x (List.mem_cons_self x xs) hp
        rw [List.filter_cons_of_pos hp, List.filter_cons_of_pos hq]
        simpa using ih'
      · rw [List.filter_cons_of_neg (by simpa using hp)]
        by_cases hq : q x = true
        · rw [List.filter_cons_of_pos hq]
          exact Nat.lt_succ_of_lt ih'
        · rw [List.filter_cons_of_neg (by simpa using hq)]
          exact ih'

theorem countMissing_le_length (packages : List Package) (acc : List String) :
    countMissing packages acc ≤ packages.length := by
  unfold countMissing
  calc ((packageNames packages).dedup.filter fun n => decide (n ∉ acc)).length ≤
      (packageNames packages).dedup.length := List.length_filter_le _ _
    _ ≤ (packageNames packages).length := (List.dedup_sublist _).length_le
    _ = packages.length := by
        unfold packageNames
        rw [List.length_map]

theorem countMissing_anti (packages : List Package) {acc acc' : List String}
    (h : ∀ x ∈ acc, x ∈ acc') :
    countMissing packages acc' ≤ countMissing packages acc := by
  unfold countMissing
  apply length_filter_mono
  intro x _ hx
  rw [decide_eq_true_eq] at hx ⊢
  intro hmem
  exact hx (h x hmem)

theorem countMissing_lt (packages : List Package) {acc : List String} {d : String}
    (hd : d ∈ packageNames packages) (hnd : d ∉ acc) :
    countMissing packages (acc ++ [d]) < countMissing packages acc := by
  unfold countMissing
  apply length_filter_lt _ _ d
  · rw [List.mem_dedup]
    exact hd
  · simp
  · simpa using hnd
  · intro x _ hx
    rw [decide_eq_true_eq] at hx ⊢
    intro hmem
    exact hx (List.mem_append.mpr (Or.inl hmem))

theorem package_name_inj {packages : List Package}
    (h : (packageNames packages).Nodup) {p q : Package}
    (hp : p ∈ packages) (hq : q ∈ packages) (hname : p.name = q.name) : p = q :=
  List.inj_on_of_nodup_map h hp hq hname

theorem dfs_fold_invariant (packages : List Package)
    (hwf : EdgesInGraph packages) (hnames : (packageNames packages).Nodup)
    (fuel : Nat)
    (IH : ∀ (pkg : Package) (acc : List String),
      pkg ∈ packages → countMissing packages acc < fuel →
      (∀ n ∈ pkg.usedBy ++ pkg.usedByDev, n ∈ addDependants packages fuel pkg acc) ∧
      (∀ n ∈ addDependants packages fuel pkg acc, n ∉ acc →
        ∀ p ∈ packages, p.name = n →
          ∀ m ∈ p.usedBy ++ p.usedByDev, m ∈ addDependants packages fuel pkg acc))
    (pkg : Package) (hpkg : pkg ∈ packages) (M : Nat) (hMfuel : M ≤ fuel) :
    ∀ (l : List String) (acc₀ acc : List String),
      (∀ d ∈ l, d ∈ pkg.usedBy ++ pkg.usedByDev) →
      (∀ x ∈ acc₀, x ∈ acc) →
      countMissing packages acc ≤ M →
      (∀ n ∈ acc, n ∉ acc₀ → ∀ p ∈ packages, p.name = n →
        ∀ m ∈ p.usedBy ++ p.usedByDev, m ∈ acc) →
      (∀ d ∈ l, d ∈ l.foldl (dfsStep packages fuel) acc) ∧
      (∀ x ∈ acc, x ∈ l.foldl (dfsStep packages fuel) acc) ∧
      countMissing packages (l.foldl (dfsStep packages fuel) acc) ≤ M ∧
      (∀ n ∈ l.foldl (dfsStep packages fuel) acc, n ∉ acc₀ →
        ∀ p ∈ packages, p.name = n →
          ∀ m ∈ p.usedBy ++ p.usedByDev, m ∈ l.foldl (dfsStep packages fuel) acc) := by
  intro l
  induction l with
  | nil =>
    intro acc₀ acc _ _ hcount hclo
    exact ⟨by simp, fun x hx => hx, hcount, hclo⟩
  | cons d l' ihl =>
    intro acc₀ acc hl hsub hcount hclo
    simp only [List.foldl_cons]
    by_cases hmem : d ∈ acc
    · rw [dfsStep_mem packages fuel hmem]
      have hres := ihl acc₀ acc (fun e he => hl e (List.mem_cons_of_mem d he)) hsub
        hcount hclo
      refine ⟨?_, hres.2.1, hres.2.2.1, hres.2.2.2⟩
      intro e he
      rcases List.mem_cons.mp he with rfl | he'
      · exact hres.2.1 e hmem
      · exact hres.1 e he'
    · have hd : d ∈ pkg.usedBy ++ pkg.usedByDev := hl d (List.mem_cons_self d l')
      obtain ⟨q, hq, hqname⟩ := hwf pkg hpkg d hd
      cases hfind : packages.find? (fun r => r.name = d) with
      | none =>
        exfalso
        have := List.find?_eq_none.mp hfind q hq
        simp [hqname] at this
      | some dep =>
        rw [dfsStep_found packages fuel hmem hfind]
        have hdep_mem : dep ∈ packages := List.mem_of_find?_eq_some hfind
        have hdepname : dep.name = d := by
          have := List.find?_some hfind
          simpa using this
        have hdname : d ∈ packageNames packages := by
          unfold packageNames
          exact List.mem_map.mpr ⟨q, hq, hqname⟩
        have hcount' : countMissing packages (acc ++ [d]) < fuel :=
          Nat.lt_of_lt_of_le (countMissing_lt packages hdname hmem)
            (Nat.le_trans hcount hMfuel)
        have hIH := IH dep (acc ++ [d]) hdep_mem hcount'
        set a₁ := addDependants packages fuel dep (acc ++ [d]) with ha₁
        have hmono_a₁ : ∀ x ∈ acc ++ [d], x ∈ a₁ := fun x hx =>
          addDependants_mono packages fuel dep (acc ++ [d]) x hx
        have hsub_a₁ : ∀ x ∈ acc, x ∈ a₁ := fun x hx =>
          hmono_a₁ x (List.mem_append.mpr (Or.inl hx))
        have hd_a₁ : d ∈ a₁ := hmono_a₁ d (by simp)
        have hcount_a₁ : countMissing packages a₁ ≤ M :=
          Nat.le_trans (countMissing_anti packages hsub_a₁) hcount
        have hclo_a₁ : ∀ n ∈ a₁, n ∉ acc₀ → ∀ p ∈ packages, p.name = n →
            ∀ m ∈ p.usedBy ++ p.usedByDev, m ∈ a₁ := by
          intro n hn hn₀ p hp hpn m hm
          by_cases hnacc : n ∈ acc
          · exact hsub_a₁ m (hclo n hnacc hn₀ p hp hpn m hm)
          · by_cases hnd : n = d
            · subst hnd
              have hpdep : p = dep :=
                package_name_inj hnames hp hdep_mem (by rw [hpn, hdepname])
              exact hIH.1 m (hpdep ▸ hm)
            · have hnot : n ∉ acc ++ [d] := by
                intro hc
                rcases List.mem_append.mp hc with h | h
                · exact hnacc h
                · rw [List.mem_singleton] at h
                  exact hnd h
              exact hIH.2 n hn hnot p hp hpn m hm
        have hres := ihl acc₀ a₁ (fun e he => hl e (List.mem_cons_of_mem d he))
          (fun x hx => hsub_a₁ x (hsub x hx)) hcount_a₁ hclo_a₁
        refine ⟨?_, fun x hx => hres.2.1 x (hsub_a₁ x hx), hres.2.2.1, hres.2.2.2⟩
        intro e he
        rcases List.mem_cons.mp he with rfl | he'
        · exact hres.2.1 e hd_a₁
        · exact hres.1 e he'

theorem addDependants_closed (packages : List Package)
    (hwf : EdgesInGraph packages) (hnames : (packageNames packages).Nodup) :
    ∀ (fuel : Nat) (pkg : Package) (acc : List String),
      pkg ∈ packages → countMissing packages acc < fuel →
      (∀ n ∈ pkg.usedBy ++ pkg.usedByDev, n ∈ addDependants packages fuel pkg acc) ∧
      (∀ n ∈ addDependants packages fuel pkg acc, n ∉ acc →
        ∀ p ∈ packages, p.name = n →
          ∀ m ∈ p.usedBy ++ p.usedByDev, m ∈ addDependants packages fuel pkg acc) := by
  intro fuel
  induction fuel with
  | zero =>
    intro pkg acc _ hcount
    exact absurd hcount (Nat.not_lt_zero _)
  | succ fuel ih =>
    intro pkg acc hpkg hcount
    rw [addDependants_succ]
    have hres := dfs_fold_invariant packages hwf hnames fuel ih pkg hpkg
      (countMissing packages acc) (Nat.lt_succ_iff.mp hcount)
      (pkg.usedBy ++ pkg.usedByDev) acc acc (fun d hd => hd) (fun x hx => hx)
      (Nat.le_refl _) (fun n hn hn₀ => absurd hn hn₀)
    exact ⟨hres.1, hres.2.2.2⟩

theorem affected_fold_invariant (packages : List Package)
    (hwf : EdgesInGraph packages) (hnames : (packageNames packages).Nodup)
    (affected₀ : List String) :
    ∀ (l : List Package) (acc : List String),
      (∀ p ∈ l, p ∈ packages) →
      acc.Nodup →
      (∀ n ∈ acc, n ∉ affected₀ → ∀ p ∈ packages, p.name = n →
        ∀ m ∈ p.usedBy ++ p.usedByDev, m ∈ acc) →
      (∀ x ∈ acc,
        x ∈ l.foldl (fun a q => addDependants packages (packages.length + 1) q a) acc) ∧
      (l.foldl (fun a q => addDependants packages (packages.length + 1) q a) acc).Nodup ∧
      (∀ n ∈ l.foldl (fun a q => addDependants packages (packages.length + 1) q a) acc,
        n ∉ affected₀ → ∀ p ∈ packages, p.name = n →
          ∀ m ∈ p.usedBy ++ p.usedByDev,
            m ∈ l.foldl (fun a q => addDependants packages (packages.length + 1) q a) acc) ∧
      (∀ q ∈ l, ∀ m ∈ q.usedBy ++ q.usedByDev,
        m ∈ l.foldl (fun a q => addDependants packages (packages.length + 1) q a) acc) := by
  intro l
  induction l with
  | nil =>
    intro acc _ hnd hclo
    exact ⟨fun x hx => hx, hnd, hclo, by simp⟩
  | cons pkg l' ihl =>
    intro acc hl hnd hclo
    simp only [List.foldl_cons]
    have hpkg : pkg ∈ packages := hl pkg (List.mem_cons_self pkg l')
    have hcount : countMissing packages acc < packages.length + 1 :=
      Nat.lt_succ_of_le (countMissing_le_length packages acc)
    have hmain := addDependants_closed packages hwf hnames (packages.length + 1)
      pkg acc hpkg hcount
    set a₁ := addDependants packages (packages.length + 1) pkg acc with ha₁
    have hmono : ∀ x ∈ acc, x ∈ a₁ := fun x hx =>
      addDependants_mono packages _ pkg acc x hx
    have hnd₁ : a₁.Nodup := addDependants_nodup packages _ pkg acc hnd
    have hclo₁ : ∀ n ∈ a₁, n ∉ affected₀ → ∀ p ∈ packages, p.name = n →
        ∀ m ∈ p.usedBy ++ p.usedByDev, m ∈ a₁ := by
      intro n hn hn₀ p hp hpn m hm
      by_cases hnacc : n ∈ acc
      · exact hmono m (hclo n hnacc hn₀ p hp hpn m hm)
      · exact hmain.2 n hn hnacc p hp hpn m hm
    have hres := ihl a₁ (fun p hp => hl p (List.mem_cons_of_mem pkg hp)) hnd₁ hclo₁
    refine ⟨fun x hx => hres.1 x (hmono x hx), hres.2.1, hres.2.2.1, ?_⟩
    intro q hq m hm
    rcases List.mem_cons.mp hq with rfl | hq'
    · exact hres.1 m (hmain.1 m hm)
    · exact hres.2.2.2 q hq' m hm

theorem affected_fold_sound (packages : List Package) (S : List String)
    (hclosed : ClosedUnderDependants packages S) :
    ∀ (l : List Package) (acc : List String),
      (∀ p ∈ l, p ∈ packages ∧ p.name ∈ S) → (∀ x ∈ acc, x ∈ S) →
      ∀ x ∈ l.foldl (fun a q => addDependants packages (packages.length + 1) q a) acc,
        x ∈ S := by
  intro l
  induction l with
  | nil =>
    intro acc _ hacc x hx
    exact hacc x hx
  | cons pkg l' ihl =>
    intro acc hl hacc
    simp only [List.foldl_cons]
    apply ihl _ fun p hp => hl p (List.mem_cons_of_mem pkg hp)
    exact addDependants_sound packages S hclosed _ pkg acc
      (hl pkg (List.mem_cons_self pkg l')).1
      (hl pkg (List.mem_cons_self pkg l')).2 hacc

theorem getPackagesAffectedByChange_eq (packages : List Package)
    (changes : List String) :
    getPackagesAffectedByChange packages changes =
      (packages.filter fun p => changes.any fun c => strStartsWith c (dirname p.path)).foldl
        (fun acc pkg => addDependants packages (packages.length + 1) pkg acc)
        (directlyChangedNames packages changes) := rfl

theorem directlyChangedNames_nodup (packages : List Package) (changes : List String)
    (hnames : (packageNames packages).Nodup) :
    (directlyChangedNames packages changes).Nodup := by
  unfold directlyChangedNames
  exact hnames.sublist ((List.filter_sublist packages).map _)

/-- C1: `getPackagesAffectedByChange` returns the least superset of the
directly-changed package names closed under the `usedBy` and
`usedByDev` edges — it contains the directly-changed names, is closed
under the edges, is contained in every closed superset of the
directly-changed names, and contains no duplicates (each package is
added at most once; totality of the function is termination).  On the
chain `a → b → c` with a change only under `c` it returns exactly
`{a, b, c}`, and it terminates on the diamond without duplicating
`d`. -/
theorem claim1_affected_least_closed :
    (∀ (packages : List Package) (changes : List String),
      EdgesInGraph packages → (packageNames packages).Nodup →
      (∀ n ∈ directlyChangedNames packages changes,
        n ∈ getPackagesAffectedByChange packages changes) ∧
      ClosedUnderDependants packages (getPackagesAffectedByChange packages changes) ∧
      (∀ S : List String,
        (∀ n ∈ directlyChangedNames packages changes, n ∈ S) →
        ClosedUnderDependants packages S →
        ∀ n ∈ getPackagesAffectedByChange packages changes, n ∈ S) ∧
      (getPackagesAffectedByChange packages changes).Nodup) ∧
    getPackagesAffectedByChange chainPkgs ["c/index.js"] = ["c", "b", "a"] ∧
    getPackagesAffectedByChange diamondPkgs ["c/x.ts"] = ["c", "a", "d", "b"] := by
  refine ⟨?_, by decide, by decide⟩
  intro packages changes hwf hnames
  rw [getPackagesAffectedByChange_eq]
  have hl : ∀ p ∈ (packages.filter fun p =>
      changes.any fun c => strStartsWith c (dirname p.path)), p ∈ packages :=
    fun p hp => (List.mem_filter.mp hp).1
  have hnd₀ : (directlyChangedNames packages changes).Nodup :=
    directlyChangedNames_nodup packages changes hnames
  have hinv := affected_fold_invariant packages hwf hnames
    (directlyChangedNames packages changes)
    (packages.filter fun p => changes.any fun c => strStartsWith c (dirname p.path))
    (directlyChangedNames packages changes) hl hnd₀
    (fun n hn hn₀ => absurd hn hn₀)
  refine ⟨hinv.1, ?_, ?_, hinv.2.1⟩
  · intro p hp hpname m hm
    by_cases hdirect : p.name ∈ directlyChangedNames packages changes
    · unfold directlyChangedNames at hdirect
      rw [List.mem_map] at hdirect
      obtain ⟨q, hq, hqname⟩ := hdirect
      have hqp : q ∈ packages := (List.mem_filter.mp hq).1
      have hpq : p = q := package_name_inj hnames hp hqp (by rw [hqname])
      exact hinv.2.2.2 q hq m (hpq ▸ hm)
    · exact hinv.2.2.1 p.name hpname hdirect p hp rfl m hm
  · intro S hS hSclosed n hn
    apply affected_fold_sound packages S hSclosed _ _ ?_ hS n hn
    intro p hp
    refine ⟨hl p hp, hS p.name ?_⟩
    unfold directlyChangedNames
    exact List.mem_map.mpr ⟨p, hp, rfl⟩

/-- C1 witness: the directly-changed package `c` of the diamond is in
the affected set. -/
theorem claim1_witness : "c" ∈ getPackagesAffectedByChange diamondPkgs ["c/x.ts"] :=
  (claim1_affected_least_closed.1 diamondPkgs ["c/x.ts"]
    (by unfold EdgesInGraph; decide) (by decide)).1 "c" (by decide)

/-! ## C2: publish-order planner -/

theorem mem_kahnBatch {dag : List (String × List String)} {removed : List String}
    {n : String} :
    n ∈ kahnBatch dag removed ↔
      n ∈ (dag.map fun e => e.1) ∧ n ∉ removed ∧
        countInDegreeFrom dag removed n = 0 := by
  unfold kahnBatch
  rw [List.mem_filter]
  simp [and_assoc]

theorem countInDegreeFrom_zero {dag : List (String × List String)}
    {removed : List String} {b : String}
    (h : countInDegreeFrom dag removed b = 0) :
    ∀ e ∈ dag, e.1 ∉ removed → b ∉ e.2 := by
  intro e he hmem hbe
  unfold countInDegreeFrom at h
  have he' : e ∈ dag.filter fun e => decide (e.1 ∉ removed) :=
    List.mem_filter.mpr ⟨he, by simpa using hmem⟩
  have hx : e.2.count b ∈
      (dag.filter fun e => decide (e.1 ∉ removed)).map fun e => e.2.count b :=
    List.mem_map.mpr ⟨e, he', rfl⟩
  have hle := List.single_le_sum (fun x _ => Nat.zero_le x) _ hx
  rw [h] at hle
  have hpos : 0 < e.2.count b := List.count_pos_iff.mpr hbe
  omega

theorem kahnExit_sound {dag : List (String × List String)} {removed : List String}
    {bs : List (List String)}
    (h : (if dag.all (fun e => decide (e.1 ∈ removed)) then some [] else none) =
      some bs) :
    bs = [] ∧ ∀ e ∈ dag, e.1 ∈ removed := by
  by_cases hc : dag.all (fun e => decide (e.1 ∈ removed)) = true
  · rw [if_pos hc] at h
    injection h with h
    refine ⟨h.symm, ?_⟩
    intro e he
    have := List.all_eq_true.mp hc e he
    simpa using this
  · rw [if_neg hc] at h
    exact absurd h (by simp)

theorem kahnLayers_sound (dag : List (String × List String))
    (hkeys : (dag.map fun e => e.1).Nodup) :
    ∀ (fuel : Nat) (removed : List String) (bs : List (List String)),
      kahnLayers dag fuel removed = some bs →
      (∀ k ∈ dag.map fun e => e.1, k ∈ removed ∨ k ∈ bs.flatten) ∧
      (∀ b ∈ bs.flatten, b ∈ (dag.map fun e => e.1) ∧ b ∉ removed) ∧
      bs.flatten.Nodup ∧
      (∀ (j : Nat) (bj : List String), bs.get? j = some bj → ∀ b ∈ bj,
        countInDegreeFrom dag (removed ++ (bs.take j).flatten) b = 0) := by
  intro fuel
  induction fuel with
  | zero =>
    intro removed bs h
    rw [kahnLayers] at h
    obtain ⟨rfl, hall⟩ := kahnExit_sound h
    refine ⟨?_, by simp, by simp, ?_⟩
    · intro k hk
      rw [List.mem_map] at hk
      obtain ⟨e, he, rfl⟩ := hk
      exact Or.inl (hall e he)
    · intro j bj hj
      simp at hj
  | succ fuel ih =>
    intro removed bs h
    rw [kahnLayers] at h
    by_cases hempty : (kahnBatch dag removed).isEmpty = true
    · rw [if_pos hempty] at h
      obtain ⟨rfl, hall⟩ := kahnExit_sound h
      refine ⟨?_, by simp, by simp, ?_⟩
      · intro k hk
        rw [List.mem_map] at hk
        obtain ⟨e, he, rfl⟩ := hk
        exact Or.inl (hall e he)
      · intro j bj hj
        simp at hj
    · rw [if_neg hempty] at h
      cases hrec : kahnLayers dag fuel (removed ++ kahnBatch dag removed) with
      | none =>
        rw [hrec] at h
        exact absurd h (by simp)
      | some rest =>
        rw [hrec] at h
        injection h with h
        subst h
        have hres := ih (removed ++ kahnBatch dag removed) rest hrec
        refine ⟨?_, ?_, ?_, ?_⟩
        · intro k hk
          rcases hres.1 k hk with hk' | hk'
          · rcases List.mem_append.mp hk' with h1 | h1
            · exact Or.inl h1
            · right
              rw [List.flatten_cons]
              exact List.mem_append.mpr (Or.inl h1)
          · right
            rw [List.flatten_cons]
            exact List.mem_append.mpr (Or.inr hk')
        · intro b hb
          rw [List.flatten_cons] at hb
          rcases List.mem_append.mp hb with hb' | hb'
          · have hbb := mem_kahnBatch.mp hb'
            exact ⟨hbb.1, hbb.2.1⟩
          · have hbb := hres.2.1 b hb'
            exact ⟨hbb.1, fun hc => hbb.2 (List.mem_append.mpr (Or.inl hc))⟩
        · rw [List.flatten_cons, List.nodup_append]
          refine ⟨hkeys.sublist (List.filter_sublist _), hres.2.2.1, ?_⟩
          intro a ha hb
          exact (hres.2.1 a hb).2 (List.mem_append.mpr (Or.inr ha))
        · intro j bj hj b hb
          cases j with
          | zero =>
            have hbj : kahnBatch dag removed = bj := by simpa using hj
            rw [List.take_zero, List.flatten_nil, List.append_nil]
            exact (mem_kahnBatch.mp (hbj ▸ hb)).2.2
          | succ j' =>
            have hj' : rest.get? j' = some bj := by simpa using hj
            have hz := hres.2.2.2 j' bj hj' b hb
            rw [List.take_succ_cons, List.flatten_cons, ← List.append_assoc]
            exact hz

theorem not_all_removed (dag : List (String × List String)) {C removed : List String}
    (hne : C ≠ []) (hCkeys : ∀ n ∈ C, n ∈ dag.map fun e => e.1)
    (hCr : ∀ n ∈ C, n ∉ removed) :
    ¬dag.all (fun e => decide (e.1 ∈ removed)) = true := by
  intro hall
  rcases C with _ | ⟨n₀, C'⟩
  · exact hne rfl
  · have hk := hCkeys n₀ (List.mem_cons_self _ _)
    rw [List.mem_map] at hk
    obtain ⟨e, he, hen⟩ := hk
    have h1 := List.all_eq_true.mp hall e he
    rw [decide_eq_true_eq, hen] at h1
    exact hCr n₀ (List.mem_cons_self _ _) h1

theorem kahnLayers_cycle (dag : List (String × List String)) (C : List String)
    (hC : HasCycleSet dag C) :
    ∀ (fuel : Nat) (removed : List String), (∀ n ∈ C, n ∉ removed) →
      kahnLayers dag fuel removed = none := by
  obtain ⟨hne, hCkeys, hCpred⟩ := hC
  intro fuel
  induction fuel with
  | zero =>
    intro removed hCr
    rw [kahnLayers, if_neg (not_all_removed dag hne hCkeys hCr)]
  | succ fuel ih =>
    intro removed hCr
    have hCbatch : ∀ n ∈ C, n ∉ kahnBatch dag removed := by
      intro n hn hmem
      have hb := mem_kahnBatch.mp hmem
      obtain ⟨m, hm, e, he, hem, hne2⟩ := hCpred n hn
      have hnr : e.1 ∉ removed := by
        rw [hem]
        exact hCr m hm
      exact countInDegreeFrom_zero hb.2.2 e he hnr hne2
    rw [kahnLayers]
    by_cases hempty : (kahnBatch dag removed).isEmpty = true
    · rw [if_pos hempty, if_neg (not_all_removed dag hne hCkeys hCr)]
    · rw [if_neg hempty]
      have hrec := ih (removed ++ kahnBatch dag removed) ?_
      · rw [hrec]
      · intro n hn hc
        rcases List.mem_append.mp hc with h1 | h1
        · exact hCr n hn h1
        · exact hCbatch n hn h1

theorem index_lt_of_mem_take {α : Type} {bs : List (List α)} {i j : Nat}
    {bi : List α} {a : α}
    (hnd : bs.flatten.Nodup) (hi : bs.get? i = some bi) (ha : a ∈ bi)
    (hj : a ∈ (bs.take j).flatten) : i < j := by
  by_contra hij
  push_neg at hij
  have hdrop : a ∈ (bs.drop j).flatten := by
    have hgd : (bs.drop j).get? (i - j) = some bi := by
      rw [List.get?_drop, Nat.add_sub_cancel' hij]
      exact hi
    rw [List.mem_flatten]
    exact ⟨bi, List.get?_mem hgd, ha⟩
  have hsplit : bs.flatten = (bs.take j).flatten ++ (bs.drop j).flatten := by
    rw [← List.flatten_append, List.take_append_drop]
  rw [hsplit, List.nodup_append] at hnd
  exact hnd.2.2 hj hdrop

theorem publishDag_keys (packages : List Package) :
    ((packages.map fun p => (p.name, p.usedBy ++ p.usedByDev)).map fun e => e.1) =
      packageNames packages := by
  rw [List.map_map]
  rfl

/-- C2: when `getPublishOrder` returns batches, every package of the
input appears in exactly one batch (every package name occurs in the
flattened batches, every batch entry is a package name, and the
flattened batches have no duplicates), and every package's batch index
is strictly greater than the batch index of every package it depends on
(if `q` is in `p`'s `usedBy ++ usedByDev` — that is, `q` depends on `p`
— then `q`'s batch comes strictly after `p`'s); on cyclic input it
reports an error (`none`) instead of an order.  The external
`batching-toposort` routine is modelled from the spec as a Kahn-style
layered sort. -/
theorem claim2_publish_order_batches (packages : List Package)
    (hnames : (packageNames packages).Nodup) :
    (∀ bs : List (List String), getPublishOrder packages = some bs →
      (∀ p ∈ packages, p.name ∈ bs.flatten) ∧
      (∀ n ∈ bs.flatten, n ∈ packageNames packages) ∧
      bs.flatten.Nodup ∧
      (∀ p ∈ packages, ∀ q ∈ p.usedBy ++ p.usedByDev,
        ∀ (i j : Nat) (bi bj : List String), bs.get? i = some bi →
          bs.get? j = some bj → p.name ∈ bi → q ∈ bj → i < j)) ∧
    (∀ C : List String,
      HasCycleSet (packages.map fun p => (p.name, p.usedBy ++ p.usedByDev)) C →
      getPublishOrder packages = none) := by
  have hkeys :
      ((packages.map fun p => (p.name, p.usedBy ++ p.usedByDev)).map
        fun e => e.1).Nodup := by
    rw [publishDag_keys]
    exact hnames
  constructor
  · intro bs h
    unfold getPublishOrder batchingToposort at h
    have hsound := kahnLayers_sound _ hkeys _ [] bs h
    refine ⟨?_, ?_, hsound.2.2.1, ?_⟩
    · intro p hp
      have hk : p.name ∈
          ((packages.map fun p => (p.name, p.usedBy ++ p.usedByDev)).map
            fun e => e.1) := by
        rw [publishDag_keys]
        unfold packageNames
        exact List.mem_map.mpr ⟨p, hp, rfl⟩
      rcases hsound.1 p.name hk with hk' | hk'
      · simp at hk'
      · exact hk'
    · intro n hn
      have := (hsound.2.1 n hn).1
      rw [publishDag_keys] at this
      exact this
    · intro p hp q hq i j bi bj hi hj hpbi hqbj
      have hz := hsound.2.2.2 j bj hj q hqbj
      rw [List.nil_append] at hz
      have hptake : p.name ∈ (bs.take j).flatten := by
        by_contra hnp
        have he : (p.name, p.usedBy ++ p.usedByDev) ∈
            packages.map fun p => (p.name, p.usedBy ++ p.usedByDev) :=
          List.mem_map.mpr ⟨p, hp, rfl⟩
        exact countInDegreeFrom_zero hz _ he hnp hq
      exact index_lt_of_mem_take hsound.2.2.1 hi hpbi hptake
  · intro C hC
    unfold getPublishOrder batchingToposort
    exact kahnLayers_cycle _ C hC _ [] fun n _ hmem => (List.not_mem_nil n) hmem

/-- C2 witness: on the chain graph the planner returns the batches
`[[c], [b], [a]]`, and the package `a` appears in them. -/
theorem claim2_witness :
    chainA.name ∈ ([["c"], ["b"], ["a"]] : List (List String)).flatten :=
  ((claim2_publish_order_batches chainPkgs (by decide)).1 [["c"], ["b"], ["a"]]
    (by decide)).1 chainA (by decide)

end PublishScript
